import Mathlib

/-!
# Pathway-adherence scoring kernel: shallow embedding

Embedding of `adherence.py` (pathway-adherence scoring kernel).  Python
floats are modeled as `ℚ`; character strings of symbol digits are modeled
as `List ℕ` of decimal digits; fallible Python code (statements that can
raise) is modeled with `Option`, `none` meaning "an exception was raised
here"; the module-level globals `data` and `cat_map` (loaded once by
`initialize`) are passed as explicit read-only parameters.
-/

namespace Adherence

/-- Python `round(x, 3)`.  We round half away from the tie the same way on
every input that the development evaluates (no value sits exactly on a
half-thousandth tie, where Python's float banker's rounding could differ
from this rational model). -/
def round3 (q : ℚ) : ℚ := (⌊q * 1000 + 1/2⌋ : ℚ) / 1000

/-- Fuel-driven helper for `digitsOf`; structural recursion on the fuel so
that the kernel can evaluate it.  `fuel = n` always suffices because
`n / 10 ≤ n - 1` whenever `10 ≤ n`, so the fuel-exhausted first branch is
never reached on the calls `digitsOf` makes. -/
def digitsAux : ℕ → ℕ → List ℕ
  | 0, n => [n]
  | fuel + 1, n => if n < 10 then [n] else digitsAux fuel (n / 10) ++ [n % 10]

/-- Decimal digits of `n`, most significant first: the model of Python
`str(n)` for a natural `n` (`str(0) = "0"`). -/
def digitsOf (n : ℕ) : List ℕ := digitsAux n n

/-- The accepted-codes value stored at one pathway step.  The registry is
parsed JSON, so a step's value may be any JSON value; `some codes` is a
well-formed list of code strings, and `none` models a malformed
(non-container) value: Python raises `TypeError` as soon as a membership
test `procedure in carepath[key]` touches it. -/
abbrev StepVal := Option (List String)

/-- One candidate care pathway: its steps in authored (dict-insertion)
order.  Step names are opaque dict keys used only to pair each step with
its symbol (the loops `for key in carepath` run in insertion order and use
`carepath[key]` and `mapping[key]`), so we address steps by position; the
symbol of step `k` is `str(k+1)`. -/
abbrev CarePath := List StepVal

/-- The pathway registry access `data[diag_cd][0]`: `none` models the
`KeyError`/`IndexError` raised for a diagnosis that is absent (or whose
entry has no first element), `some cps` the list of candidate pathways. -/
abbrev Registry := String → Option (List CarePath)

/-- A hierarchy row: an inclusive code range and its minor-category label. -/
structure HEntry where
  startCode : ℕ
  endCode : ℕ
  cat : String

/-- Python `s.isdigit()` (ASCII fragment): nonempty and all digits. -/
def pyIsDigit (s : String) : Bool :=
  !s.data.isEmpty && s.data.all Char.isDigit

/-- Python `s.lstrip('0')`. -/
def lstrip0 (s : String) : String :=
  String.mk (s.data.dropWhile (· = '0'))

/-- Parse a decimal string as a natural number (`none` for the empty
string or a non-digit character): the arithmetic reading of a dict key
`str(i)`.  Call sites only pass zero-stripped all-digit strings, for which
this is exactly the `i` with `str(i) = s`. -/
def pyParseNat (s : String) : Option ℕ :=
  if pyIsDigit s then
    some (s.data.foldl (fun n c => n * 10 + (c.toNat - '0'.toNat)) 0)
  else none

/-- The category map built by `get_category_map`: the dict maps `str(i)`,
for every `i` in an entry's inclusive range, to that entry's category
object, later entries overwriting earlier ones on collision.  Looking a
key `s` up in that dict is equivalent to parsing `s` as a natural number
and taking the last entry whose range contains it (call sites always pass
zero-stripped, hence canonical, decimal strings).  A category *object* is
modeled as `(entry index, category string)`: in CPython every row of the
hierarchy carries its own string object, so Python `is` on two category
objects is equality of the originating entry index, not of the string
value. -/
def get_category_map (hierarchy : List HEntry) (s : String) : Option (ℕ × String) :=
  match pyParseNat s with
  | none => none
  | some n =>
      hierarchy.enum.foldl
        (fun acc ie =>
          if ie.2.startCode ≤ n ∧ n ≤ ie.2.endCode then some (ie.1, ie.2.cat) else acc)
        none

/-- The substitution-scoring table from `make_scoring_dict`, as a function:
the dict's value at a key pair depends only on the pair, and the alignment
only ever queries pairs of digits that occur in the target string (over
which the dict is built), where this function agrees with the dict. -/
def make_scoring_dict (c1 c2 : ℕ) : ℤ :=
  if c1 = c2 then
    (if c1 ≠ 0 then 10 else 1000)
  else if c1 = 0 ∨ c2 = 0 then -1000
  else if (c1 : ℤ) - c2 = 1 ∨ (c2 : ℤ) - c1 = 1 then 5
  else 0

/-- Symbol of step `k` (`mapping[key_list[k]] = str(k+1)`). -/
def stepSymbol (k : ℕ) : List ℕ := digitsOf (k + 1)

/-- `get_target_sequence`: the string `'0' + str(1) + ... + str(N)` built
step by step (we return only the target; the mapping it also builds is
positional, see `stepSymbol`). -/
def get_target_sequence (cp : CarePath) : List ℕ :=
  0 :: (List.range cp.length).flatMap (fun k => stepSymbol k)

/-- `get_reduced_str`: keep only the first occurrence of each character. -/
def get_reduced_str (s : List ℕ) : List ℕ :=
  s.foldl (fun new c => if c ∈ new then new else new ++ [c]) []

/-- Inner loop of `construct_pcd_seq`: scan steps in authored order
(`k` is the index of the first step still to scan); on the first step
whose accepted set contains the code, return its symbol.  `none` models
the `TypeError` raised when a malformed step value is scanned before any
match; `some none` means no step matched. -/
def findStep (p : String) (steps : List StepVal) (k : ℕ) : Option (Option (List ℕ)) :=
  match steps with
  | [] => some none
  | none :: _ => none
  | some codes :: rest =>
      if p ∈ codes then some (some (stepSymbol k)) else findStep p rest (k + 1)

/-- The loop of `construct_pcd_seq`: the characters appended to the
initial `'0'`, one scan per observed code, non-matching codes appending
nothing. -/
def buildPcd (procedures : List String) (cp : CarePath) : Option (List ℕ) :=
  match procedures with
  | [] => some []
  | p :: rest => do
      let m ← findStep p cp 0
      let tail ← buildPcd rest cp
      pure (m.getD [] ++ tail)

/-- `construct_pcd_seq`: projected sequence and match fraction
`(len(pcd_seq)-1)/len(procedures)`.  `none` models an exception: a
`TypeError` from a malformed step reached during a scan, or the
`ZeroDivisionError` raised when `procedures` is empty. -/
def construct_pcd_seq (procedures : List String) (cp : CarePath) :
    Option (List ℕ × ℚ) :=
  match buildPcd procedures cp with
  | none => none
  | some body =>
      if procedures.length = 0 then none
      else
        some (0 :: body, (((0 :: body).length : ℚ) - 1) / procedures.length)

/-- Rollup scan of `construct_rollup_pcd_seq`: for the observed code's
category object `cat`, scan steps in authored order; inside a step, scan
its accepted codes for the first purely numeric one whose category object
is `cat` itself (Python `is`, modeled as equality of `(entry index, name)`
pairs, the object being unique per entry); a code whose category lookup
raises is skipped by the inner `except: continue`.  `none` models the
`TypeError` raised on a malformed step value. -/
def rollupScan (cat : ℕ × String) (catm : String → Option (ℕ × String)) :
    List StepVal → ℕ → Option (Option (List ℕ))
  | [], _ => some none
  | none :: _, _ => none
  | some codes :: rest, k =>
      if codes.any (fun c => pyIsDigit c && decide (catm (lstrip0 c) = some cat)) then
        some (some (stepSymbol k))
      else rollupScan cat catm rest (k + 1)

/-- One iteration of the `construct_rollup_pcd_seq` loop: the characters
this observed code appends (possibly none), or `none` for an exception. -/
def rollupProc (p : String) (cp : CarePath) (catm : String → Option (ℕ × String)) :
    Option (List ℕ) :=
  if p = "None" ∨ p = "" then some []
  else
    match findStep p cp 0 with
    | none => none
    | some (some syms) => some syms
    | some none =>
        if pyIsDigit p then
          match catm (lstrip0 p) with
          | none => some []
          | some cat =>
              match rollupScan cat catm cp 0 with
              | none => none
              | some r => some (r.getD [])
        else some []

/-- The loop of `construct_rollup_pcd_seq`. -/
def buildRollupPcd (procedures : List String) (cp : CarePath)
    (catm : String → Option (ℕ × String)) : Option (List ℕ) :=
  match procedures with
  | [] => some []
  | p :: rest => do
      let syms ← rollupProc p cp catm
      let tail ← buildRollupPcd rest cp catm
      pure (syms ++ tail)

/-- `construct_rollup_pcd_seq`: exact-then-rollup projection and match
fraction. -/
def construct_rollup_pcd_seq (procedures : List String) (cp : CarePath)
    (catm : String → Option (ℕ × String)) : Option (List ℕ × ℚ) :=
  match buildRollupPcd procedures cp catm with
  | none => none
  | some body =>
      if procedures.length = 0 then none
      else
        some (0 :: body, (((0 :: body).length : ℚ) - 1) / procedures.length)

/-!
## Alignment scorer

The alignment engine itself (`Bio.pairwise2.align.globaldd`) is an external
library, not part of this repository.  Modelled from the spec: a *global*
alignment of the target sequence `A` (= `cp_seq`) against the projected
sequence `B` (= `pcd_seq`), scored with the per-pathway substitution table,
with affine gap costs — gap-open `-10` / gap-extend `0` for gaps in the
target, gap-open `-5` / gap-extend `-1` for gaps in the projected
sequence — and *end gaps not penalized*; the optimal (maximal) raw score
is returned.  We realize this as the maximum trace score over all
alignment traces of the two sequences.
-/

/-- One column of an alignment trace: two characters aligned, a character
of `A` against a gap (a gap in `B`), or a character of `B` against a gap
(a gap in `A`). -/
inductive Op where
  | both (a b : ℕ)
  | onlyA (a : ℕ)
  | onlyB (b : ℕ)
deriving DecidableEq, Repr

/-- The characters of `B` consumed by a trace, in order. -/
def opsB : List Op → List ℕ
  | [] => []
  | Op.both _ b :: t => b :: opsB t
  | Op.onlyA _ :: t => opsB t
  | Op.onlyB b :: t => b :: opsB t

/-- The characters of `A` consumed by a trace, in order. -/
def opsA : List Op → List ℕ
  | [] => []
  | Op.both a _ :: t => a :: opsA t
  | Op.onlyA a :: t => a :: opsA t
  | Op.onlyB _ :: t => opsA t

/-- Fuel-driven helper for `traces`; structural recursion on the fuel so
that the kernel can evaluate it.  Every recursive call strictly decreases
`A.length + B.length`, so `fuel = A.length + B.length` always suffices and
the fuel-exhausted branch is never reached. -/
def tracesAux : ℕ → List ℕ → List ℕ → List (List Op)
  | _, [], bs => [bs.map Op.onlyB]
  | _, a :: as, [] => [(a :: as).map Op.onlyA]
  | 0, _ :: _, _ :: _ => [[]]
  | fuel + 1, a :: as, b :: bs =>
      ((tracesAux fuel as bs).map (fun t => Op.both a b :: t)) ++
      ((tracesAux fuel as (b :: bs)).map (fun t => Op.onlyA a :: t)) ++
      ((tracesAux fuel (a :: as) bs).map (fun t => Op.onlyB b :: t))

/-- All alignment traces of `A` against `B` (when one sequence is empty
the sole trace gap-consumes the other). -/
def traces (A B : List ℕ) : List (List Op) := tracesAux (A.length + B.length) A B

/-- Is this column a gap column? -/
def isGap : Op → Bool
  | Op.both _ _ => false
  | _ => true

/-- Which kind of gap run a column belongs to (0 = none). -/
def gapKind : Op → ℕ
  | Op.both _ _ => 0
  | Op.onlyA _ => 1
  | Op.onlyB _ => 2

/-- Gap-open cost of a column: `openB = -5` for a gap in `B` (an `A`
character unmatched), `openA = -10` for a gap in `A`. -/
def gapOpen : Op → ℤ
  | Op.onlyA _ => -5
  | Op.onlyB _ => -10
  | Op.both _ _ => 0

/-- Gap-extend cost of a column: `extendB = -1`, `extendA = 0`. -/
def gapExt : Op → ℤ
  | Op.onlyA _ => -1
  | _ => 0

/-- Substitution score of a trace: the sum of the scoring table over its
aligned pairs. -/
def subScore (sd : ℕ → ℕ → ℤ) : List Op → ℤ
  | [] => 0
  | Op.both a b :: t => sd a b + subScore sd t
  | _ :: t => subScore sd t

/-- Affine gap penalty of a trace: a maximal run of `L` gap columns of one
kind costs `open + extend * (L - 1)`.  The first argument tracks the kind
of the immediately preceding gap column, if any. -/
def gapPen : Option ℕ → List Op → ℤ
  | _, [] => 0
  | prev, o :: t =>
      (if isGap o then (if prev = some (gapKind o) then gapExt o else gapOpen o) else 0)
      + gapPen (if isGap o then some (gapKind o) else none) t

/-- Remove the leading and trailing gap columns of a trace: with
`penalize_end_gaps=False` they cost nothing. -/
def trimEnds (t : List Op) : List Op :=
  ((t.dropWhile isGap).reverse.dropWhile isGap).reverse

/-- Total score of one alignment trace. -/
def scoreTrace (sd : ℕ → ℕ → ℤ) (t : List Op) : ℤ :=
  subScore sd t + gapPen none (trimEnds t)

/-- The raw score of the external aligner: the maximum trace score. -/
def bestScore (sd : ℕ → ℕ → ℤ) (A B : List ℕ) : ℤ :=
  match (traces A B).map (scoreTrace sd) with
  | [] => 0
  | s :: ss => ss.foldl max s

/-- `sequence_alignment`: run the aligner on the (already reduced)
projected sequence against the target and normalize,
`(raw - 1000) / (len(pcd_seq) - 1) / 10`. -/
def sequence_alignment (pcd_seq cp_seq : List ℕ) : ℚ :=
  (((bestScore make_scoring_dict cp_seq pcd_seq : ℤ) : ℚ) - 1000) /
    ((pcd_seq.length : ℚ) - 1) / 10

/-!
## Input parsing and the three evaluator variants
-/

/-- Python `s.split(' ')`: split on every single space, keeping empty
fields. -/
def pySplitSp : List Char → List (List Char)
  | [] => [[]]
  | c :: rest =>
      match pySplitSp rest with
      | [] => [[]]
      | f :: fs => if c = ' ' then [] :: f :: fs else (c :: f) :: fs

/-- The whitespace-split fields of an input code string. -/
def fields (s : String) : List String :=
  (pySplitSp s.data).map String.mk

/-- The evaluators' parse `procedure_cds.split(' ')[:-1]`: the fields with
the last element dropped unconditionally. -/
def parseCodes (s : String) : List String :=
  (fields s).dropLast

/-- Loop body of `seq_alignment_adherence` for one candidate pathway:
`none` models an exception escaping to the surrounding `except`. -/
def strictCand (codeList : List String) (cp : CarePath) : Option ℚ := do
  let target := get_target_sequence cp
  let (pcd, frac) ← construct_pcd_seq codeList cp
  let reduced := get_reduced_str pcd
  pure (if frac ≠ 0 then sequence_alignment reduced target * frac else 0)

/-- The candidate loop of `seq_alignment_adherence`, carrying `best_adh`. -/
def strictLoop (codeList : List String) : List CarePath → ℚ → Option ℚ
  | [], best => some best
  | cp :: rest, best => do
      let adh ← strictCand codeList cp
      strictLoop codeList rest (if adh > best then adh else best)

/-- `seq_alignment_adherence` (the strict variant): any exception inside
the `try` yields the sentinel `-1.0`. -/
def seq_alignment_adherence (data : Registry) (diag_cd procedure_cds : String) : ℚ :=
  match data diag_cd with
  | none => -1
  | some carepaths =>
      match strictLoop (parseCodes procedure_cds) carepaths 0 with
      | none => -1
      | some best => round3 best

/-- One iteration of the `generous_adherence` loop.  The state is
`(best_adh, adherence)` where `adherence` is `none` while the local
variable is still unbound: on a zero match fraction the code sets
`best_adh = -1.0` and then evaluates `adherence > best_adh`, raising
`NameError` (modeled `none`) if `adherence` was never assigned, and
otherwise comparing the stale value of the previous iteration. -/
def generousStep (codeList : List String) (st : ℚ × Option ℚ) (cp : CarePath) :
    Option (ℚ × Option ℚ) := do
  let (best, adhPrev) := st
  let target := get_target_sequence cp
  let (pcd, frac) ← construct_pcd_seq codeList cp
  let reduced := get_reduced_str pcd
  if frac ≠ 0 then
    let adh := sequence_alignment reduced target
    pure (if adh > best then adh else best, some adh)
  else
    match adhPrev with
    | none => none
    | some adh => pure (if adh > (-1 : ℚ) then adh else -1, some adh)

/-- The candidate loop of `generous_adherence`. -/
def generousLoop (codeList : List String) :
    List CarePath → ℚ × Option ℚ → Option (ℚ × Option ℚ)
  | [], st => some st
  | cp :: rest, st => do
      let st' ← generousStep codeList st cp
      generousLoop codeList rest st'

/-- `generous_adherence`: alignment score without the match-fraction
factor; zero match fraction forces `best_adh = -1.0` (see
`generousStep`). -/
def generous_adherence (data : Registry) (diag_cd procedure_cds : String) : ℚ :=
  match data diag_cd with
  | none => -1
  | some carepaths =>
      match generousLoop (parseCodes procedure_cds) carepaths (0, none) with
      | none => -1
      | some st => round3 st.1

/-- `rollup_adherence` as written in the source.  Its loop body calls
`construct_rollup_pcd_seq2`, a name defined nowhere in the repository (the
defined function is `construct_rollup_pcd_seq`), so in Python the first
loop iteration raises `NameError`, which the surrounding `except` turns
into `-1.0`; with an empty candidate list the loop never runs and
`round(0.0, 3)` is returned.  The global `cat_map` is kept as a parameter
for signature fidelity although the exception fires before any use. -/
def rollup_adherence (data : Registry) (_catm : String → Option (ℕ × String))
    (diag_cd _procedure_cds : String) : ℚ :=
  match data diag_cd with
  | none => -1
  | some carepaths =>
      match carepaths with
      | [] => round3 0
      | _ :: _ => -1

/-- Loop body of the rollup evaluator for one candidate, as the spec
describes it (and as the loop plainly intends): exact-then-rollup
projection, then `alignment(reduced, target) * match_fraction`, zero
match fraction degrading the candidate to score `0`. -/
def rollupCand (catm : String → Option (ℕ × String)) (codeList : List String)
    (cp : CarePath) : Option ℚ := do
  let target := get_target_sequence cp
  let (pcd, frac) ← construct_rollup_pcd_seq codeList cp catm
  let reduced := get_reduced_str pcd
  pure (if frac ≠ 0 then sequence_alignment reduced target * frac else 0)

/-- The candidate loop of the intended rollup evaluator. -/
def rollupLoop (catm : String → Option (ℕ × String)) (codeList : List String) :
    List CarePath → ℚ → Option ℚ
  | [], best => some best
  | cp :: rest, best => do
      let adh ← rollupCand catm codeList cp
      rollupLoop catm codeList rest (if adh > best then adh else best)

/-- Modelled from the spec: the rollup evaluator of §4.6 — identical to
`seq_alignment_adherence` but projecting with the repository's defined
`construct_rollup_pcd_seq` — i.e. `rollup_adherence` with the undefined
call `construct_rollup_pcd_seq2` read as the defined
`construct_rollup_pcd_seq`. -/
def rollup_adherence_intended (data : Registry) (catm : String → Option (ℕ × String))
    (diag_cd procedure_cds : String) : ℚ :=
  match data diag_cd with
  | none => -1
  | some carepaths =>
      match rollupLoop catm (parseCodes procedure_cds) carepaths 0 with
      | none => -1
      | some best => round3 best

/-- Total per-candidate strict score: the "score per candidate" of the
spec's table — `alignment(reduced, target) * match_fraction`, a candidate
with zero match fraction scoring `0` (a candidate whose evaluation would
raise is also read as `0` here; the evaluator theorems only use this
under a no-exception hypothesis). -/
def candScoreStrict (codeList : List String) (cp : CarePath) : ℚ :=
  match construct_pcd_seq codeList cp with
  | none => 0
  | some (pcd, frac) =>
      if frac ≠ 0 then
        sequence_alignment (get_reduced_str pcd) (get_target_sequence cp) * frac
      else 0

/-!
## Alignment traces used as witnesses, and concrete instances
-/

/-- The all-gaps trace: consume `A` entirely against gaps, then `B`. -/
def skipTrace (A B : List ℕ) : List Op := A.map Op.onlyA ++ B.map Op.onlyB

/-- The diagonal trace aligning a sequence with itself position by position. -/
def diagTrace (l : List ℕ) : List Op := l.map (fun c => Op.both c c)

/-!
Concrete registries, pathways and a hierarchy used to evaluate the
evaluators at specific inputs: `cpGood` accepts the code `"a"` at its only
step, `cpZ` accepts only `"x"` (so the input `"a "` matches nothing),
`cpBad` has a malformed accepted-codes value, `cp10` has ten steps,
`cp2` has two steps, `cpX` accepts only the numeric code `"200"`, and
`hier2` is a hierarchy whose two distinct rows carry the equal category
name `"X"`.
-/

def cpGood : CarePath := [some ["a"]]
def cpZ : CarePath := [some ["x"]]
def cpBad : CarePath := [none]
def cp10 : CarePath := List.replicate 10 (some [])
def cp2 : CarePath := [some [], some []]
def hier2 : List HEntry := [⟨100, 199, "X"⟩, ⟨200, 299, "X"⟩]
def cpX : CarePath := [some ["200"]]
def dataGood : Registry := fun d => if d = "D" then some [cpGood] else none
def dataZ : Registry := fun d => if d = "D" then some [cpZ] else none
def dataC1 : Registry := fun d => if d = "D" then some [cpBad, cpGood] else none
def dataE : Registry := fun d => if d = "D" then some [] else none
def data2 : Registry := fun d => if d = "D" then some [cpZ, cpGood] else none

def catm2 : String → Option (ℕ × String) := get_category_map hier2



/-! ## Basic lemmas -/

theorem digitsOf_small {n : ℕ} (h : n < 10) : digitsOf n = [n] := by
  cases n with
  | zero => rfl
  | succ k => simp [digitsOf, digitsAux, h]

theorem stepSymbol_small {k : ℕ} (h : k < 9) : stepSymbol k = [k + 1] :=
  digitsOf_small (by omega)

theorem round3_mono {q r : ℚ} (h : q ≤ r) : round3 q ≤ round3 r := by
  unfold round3
  have : (⌊q * 1000 + 1/2⌋ : ℤ) ≤ ⌊r * 1000 + 1/2⌋ := by
    apply Int.floor_le_floor
    nlinarith
  have h2 : ((⌊q * 1000 + 1/2⌋ : ℤ) : ℚ) ≤ ((⌊r * 1000 + 1/2⌋ : ℤ) : ℚ) := by
    exact_mod_cast this
  linarith

theorem round3_nonneg {q : ℚ} (h : 0 ≤ q) : 0 ≤ round3 q := by
  unfold round3
  have : (0 : ℤ) ≤ ⌊q * 1000 + 1/2⌋ := by
    apply Int.floor_nonneg.mpr
    nlinarith
  have h2 : (0 : ℚ) ≤ ((⌊q * 1000 + 1/2⌋ : ℤ) : ℚ) := by exact_mod_cast this
  linarith

theorem ite_gt_eq_max (x b : ℚ) : (if x > b then x else b) = max b x := by
  rcases le_or_lt x b with h | h
  · simp [not_lt.mpr h, max_eq_left h]
  · simp [h, max_eq_right h.le]

/-! ## Trace machinery -/

theorem tracesAux_ne_nil : ∀ (fuel : ℕ) (A B : List ℕ), tracesAux fuel A B ≠ []
  | _, [], _ => by simp [tracesAux]
  | _, _ :: _, [] => by simp [tracesAux]
  | 0, _ :: _, _ :: _ => by simp [tracesAux]
  | fuel + 1, a :: as, b :: bs => by
      simp only [tracesAux]
      intro h
      rcases List.append_eq_nil.mp h with ⟨h1, _⟩
      rcases List.append_eq_nil.mp h1 with ⟨h2, _⟩
      exact tracesAux_ne_nil fuel as bs (List.map_eq_nil_iff.mp h2)

theorem traces_ne_nil (A B : List ℕ) : traces A B ≠ [] := tracesAux_ne_nil _ A B

theorem foldl_max_le {b : ℤ} : ∀ (l : List ℤ) (s : ℤ), s ≤ b → (∀ x ∈ l, x ≤ b) →
    l.foldl max s ≤ b
  | [], s, hs, _ => hs
  | x :: l, s, hs, hl => by
      apply foldl_max_le l (max s x)
      · exact max_le hs (hl x (by simp))
      · intro y hy; exact hl y (by simp [hy])

theorem le_foldl_max : ∀ (l : List ℤ) (s : ℤ), s ≤ l.foldl max s
  | [], _ => le_refl _
  | x :: l, s => le_trans (le_max_left s x) (le_foldl_max l (max s x))

theorem mem_le_foldl_max : ∀ (l : List ℤ) (s x : ℤ), x ∈ l → x ≤ l.foldl max s
  | [], _, _, h => by simp at h
  | y :: l, s, x, h => by
      rcases List.mem_cons.mp h with rfl | h
      · exact le_trans (le_max_right s x) (le_foldl_max l (max s x))
      · exact mem_le_foldl_max l (max s y) x h

theorem bestScore_le {sd : ℕ → ℕ → ℤ} {A B : List ℕ} {c : ℤ}
    (h : ∀ t ∈ traces A B, scoreTrace sd t ≤ c) : bestScore sd A B ≤ c := by
  unfold bestScore
  cases hm : (traces A B).map (scoreTrace sd) with
  | nil => exact absurd (List.map_eq_nil_iff.mp hm) (traces_ne_nil A B)
  | cons s ss =>
      apply foldl_max_le
      · have : s ∈ (traces A B).map (scoreTrace sd) := by rw [hm]; simp
        rcases List.mem_map.mp this with ⟨t, ht, rfl⟩
        exact h t ht
      · intro x hx
        have : x ∈ (traces A B).map (scoreTrace sd) := by rw [hm]; simp [hx]
        rcases List.mem_map.mp this with ⟨t, ht, rfl⟩
        exact h t ht

theorem le_bestScore {sd : ℕ → ℕ → ℤ} {A B : List ℕ} {t : List Op}
    (h : t ∈ traces A B) : scoreTrace sd t ≤ bestScore sd A B := by
  unfold bestScore
  cases hm : (traces A B).map (scoreTrace sd) with
  | nil => exact absurd (List.map_eq_nil_iff.mp hm) (traces_ne_nil A B)
  | cons s ss =>
      have : scoreTrace sd t ∈ (traces A B).map (scoreTrace sd) := List.mem_map_of_mem _ h
      rw [hm] at this
      rcases List.mem_cons.mp this with h' | h'
      · rw [h']; exact le_foldl_max ss s
      · exact mem_le_foldl_max ss s _ h'



/-! ## Trace membership -/

theorem skipTrace_mem : ∀ (fuel : ℕ) (A B : List ℕ),
    A.length + B.length ≤ fuel → skipTrace A B ∈ tracesAux fuel A B
  | fuel, [], bs, _ => by simp [tracesAux, skipTrace]
  | fuel, a :: as, [], _ => by simp [tracesAux, skipTrace]
  | 0, a :: as, b :: bs, h => by simp at h
  | fuel + 1, a :: as, b :: bs, h => by
      have ih := skipTrace_mem fuel as (b :: bs) (by simp at h ⊢; omega)
      simp only [tracesAux]
      refine List.mem_append.mpr (Or.inl (List.mem_append.mpr (Or.inr ?_)))
      exact List.mem_map.mpr ⟨skipTrace as (b :: bs), ih, rfl⟩

theorem skipTrace_mem_traces (A B : List ℕ) : skipTrace A B ∈ traces A B :=
  skipTrace_mem _ A B le_rfl

theorem diagTrace_mem : ∀ (fuel : ℕ) (l : List ℕ),
    l.length + l.length ≤ fuel → diagTrace l ∈ tracesAux fuel l l
  | fuel, [], _ => by simp [tracesAux, diagTrace]
  | 0, a :: as, h => by simp at h
  | fuel + 1, a :: as, h => by
      have ih := diagTrace_mem fuel as (by simp at h ⊢; omega)
      simp only [tracesAux]
      refine List.mem_append.mpr (Or.inl (List.mem_append.mpr (Or.inl ?_)))
      exact List.mem_map.mpr ⟨diagTrace as, ih, rfl⟩

theorem diagTrace_mem_traces (l : List ℕ) : diagTrace l ∈ traces l l :=
  diagTrace_mem _ l le_rfl

/-- The anchor trace for `0 :: T` against `0 :: R`: align the two leading
sentinels, gap-consume everything else. -/
theorem anchor_mem_traces (T R : List ℕ) :
    Op.both 0 0 :: skipTrace T R ∈ traces (0 :: T) (0 :: R) := by
  show Op.both 0 0 :: skipTrace T R ∈ tracesAux ((0 :: T).length + (0 :: R).length) (0 :: T) (0 :: R)
  have hlen : (0 :: T).length + (0 :: R).length = (T.length + R.length) + 1 + 1 := by
    simp; omega
  rw [hlen]
  simp only [tracesAux]
  refine List.mem_append.mpr (Or.inl (List.mem_append.mpr (Or.inl ?_)))
  exact List.mem_map.mpr ⟨skipTrace T R, skipTrace_mem _ T R (by omega), rfl⟩

/-! ## Trace soundness: the `B` characters a trace consumes -/

theorem opsB_map_onlyB (bs : List ℕ) : opsB (bs.map Op.onlyB) = bs := by
  induction bs with
  | nil => rfl
  | cons b bs ih => simp [opsB, ih]

theorem opsB_map_onlyA (as : List ℕ) : opsB (as.map Op.onlyA) = [] := by
  induction as with
  | nil => rfl
  | cons a as ih => simp [opsB, ih]

theorem opsB_sound : ∀ (fuel : ℕ) (A B : List ℕ) (t : List Op),
    A.length + B.length ≤ fuel → t ∈ tracesAux fuel A B → opsB t = B
  | fuel, [], bs, t, _, ht => by
      simp [tracesAux] at ht
      subst ht; exact opsB_map_onlyB bs
  | fuel, a :: as, [], t, _, ht => by
      simp [tracesAux] at ht
      subst ht; exact opsB_map_onlyA (a :: as)
  | 0, a :: as, b :: bs, t, h, _ => by simp at h
  | fuel + 1, a :: as, b :: bs, t, h, ht => by
      have hlen : as.length + bs.length + 2 ≤ fuel + 1 := by simp at h; omega
      simp only [tracesAux, List.mem_append, List.mem_map] at ht
      rcases ht with (⟨u, hu, rfl⟩ | ⟨u, hu, rfl⟩) | ⟨u, hu, rfl⟩
      · have := opsB_sound fuel as bs u (by omega) hu
        simp [opsB, this]
      · have := opsB_sound fuel as (b :: bs) u (by simp; omega) hu
        simp [opsB, this]
      · have := opsB_sound fuel (a :: as) bs u (by simp; omega) hu
        simp [opsB, this]

theorem opsB_traces {A B : List ℕ} {t : List Op} (ht : t ∈ traces A B) : opsB t = B :=
  opsB_sound _ A B t le_rfl ht



/-! ## Trace score bounds -/

theorem gapPen_nonpos : ∀ (prev : Option ℕ) (t : List Op), gapPen prev t ≤ 0
  | _, [] => le_refl _
  | prev, o :: t => by
      have ih := gapPen_nonpos (if isGap o then some (gapKind o) else none) t
      have h1 : (if isGap o then (if prev = some (gapKind o) then gapExt o else gapOpen o) else 0) ≤ 0 := by
        cases o <;> simp [isGap, gapExt, gapOpen] <;> split <;> norm_num
      simp only [gapPen]
      omega

theorem subScore_le_sum {sd : ℕ → ℕ → ℤ} {g : ℕ → ℤ}
    (hsd : ∀ a b, sd a b ≤ g b) (hg : ∀ b, 0 ≤ g b) :
    ∀ t : List Op, subScore sd t ≤ ((opsB t).map g).sum
  | [] => le_refl _
  | Op.both a b :: t => by
      have ih := subScore_le_sum hsd hg t
      have := hsd a b
      simp only [subScore, opsB, List.map_cons, List.sum_cons]
      omega
  | Op.onlyA a :: t => by
      have ih := subScore_le_sum hsd hg t
      simpa [subScore, opsB] using ih
  | Op.onlyB b :: t => by
      have ih := subScore_le_sum hsd hg t
      have := hg b
      simp only [subScore, opsB, List.map_cons, List.sum_cons]
      omega

theorem scoreTrace_le_sum {sd : ℕ → ℕ → ℤ} {g : ℕ → ℤ}
    (hsd : ∀ a b, sd a b ≤ g b) (hg : ∀ b, 0 ≤ g b) (t : List Op) :
    scoreTrace sd t ≤ ((opsB t).map g).sum := by
  have h1 := subScore_le_sum hsd hg t
  have h2 := gapPen_nonpos none (trimEnds t)
  unfold scoreTrace
  omega

/-! ## Scores of the exhibited traces -/

theorem isGap_skipTrace {A B : List ℕ} {o : Op} (h : o ∈ skipTrace A B) : isGap o = true := by
  unfold skipTrace at h
  rcases List.mem_append.mp h with h | h <;>
    rcases List.mem_map.mp h with ⟨x, _, rfl⟩ <;> rfl

theorem subScore_skipTrace (sd : ℕ → ℕ → ℤ) (A B : List ℕ) :
    subScore sd (skipTrace A B) = 0 := by
  unfold skipTrace
  induction A with
  | nil =>
      induction B with
      | nil => rfl
      | cons b bs ih => simpa [subScore] using ih
  | cons a as ih => simpa [subScore] using ih

theorem dropWhile_append_all {p : Op → Bool} : ∀ {l m : List Op},
    (∀ x ∈ l, p x = true) → List.dropWhile p (l ++ m) = List.dropWhile p m
  | [], m, _ => rfl
  | x :: l, m, h => by
      have hx := h x (by simp)
      simp only [List.cons_append, List.dropWhile_cons, hx, if_true]
      exact dropWhile_append_all (fun y hy => h y (by simp [hy]))

theorem trimEnds_anchor (T R : List ℕ) :
    trimEnds (Op.both 0 0 :: skipTrace T R) = [Op.both 0 0] := by
  unfold trimEnds
  have h1 : List.dropWhile isGap (Op.both 0 0 :: skipTrace T R)
      = Op.both 0 0 :: skipTrace T R := by
    simp [List.dropWhile_cons, isGap]
  rw [h1]
  have h2 : (Op.both 0 0 :: skipTrace T R).reverse
      = (skipTrace T R).reverse ++ [Op.both 0 0] := by simp
  rw [h2]
  have h3 : List.dropWhile isGap ((skipTrace T R).reverse ++ [Op.both 0 0])
      = List.dropWhile isGap [Op.both 0 0] := by
    apply dropWhile_append_all
    intro x hx
    exact isGap_skipTrace (List.mem_reverse.mp hx)
  rw [h3]
  simp [List.dropWhile_cons, isGap]

theorem scoreTrace_anchor (sd : ℕ → ℕ → ℤ) (T R : List ℕ) :
    scoreTrace sd (Op.both 0 0 :: skipTrace T R) = sd 0 0 := by
  unfold scoreTrace
  rw [trimEnds_anchor]
  simp [subScore, subScore_skipTrace, gapPen, isGap]

theorem bestScore_anchor_ge (sd : ℕ → ℕ → ℤ) (T R : List ℕ) :
    sd 0 0 ≤ bestScore sd (0 :: T) (0 :: R) := by
  have := @le_bestScore sd _ _ _ (anchor_mem_traces T R)
  rwa [scoreTrace_anchor] at this

theorem isGap_diagTrace {l : List ℕ} {o : Op} (h : o ∈ diagTrace l) : isGap o = false := by
  rcases List.mem_map.mp h with ⟨x, _, rfl⟩; rfl

theorem dropWhile_all_false {p : Op → Bool} : ∀ {l : List Op},
    (∀ x ∈ l, p x = false) → List.dropWhile p l = l
  | [], _ => rfl
  | x :: l, h => by
      have hx := h x (by simp)
      simp [List.dropWhile_cons, hx]

theorem trimEnds_diag (l : List ℕ) : trimEnds (diagTrace l) = diagTrace l := by
  unfold trimEnds
  rw [dropWhile_all_false (fun x hx => isGap_diagTrace hx)]
  rw [dropWhile_all_false (fun x hx => isGap_diagTrace (List.mem_reverse.mp hx))]
  simp

theorem gapPen_no_gaps {t : List Op} (h : ∀ x ∈ t, isGap x = false) :
    gapPen none t = 0 := by
  induction t with
  | nil => rfl
  | cons o t ih =>
      have ho := h o (by simp)
      have iht := ih (fun y hy => h y (by simp [hy]))
      simp [gapPen, ho, iht]

theorem subScore_diag (sd : ℕ → ℕ → ℤ) (l : List ℕ) :
    subScore sd (diagTrace l) = (l.map (fun c => sd c c)).sum := by
  induction l with
  | nil => rfl
  | cons c l ih =>
      simp only [diagTrace, List.map_cons, subScore, List.sum_cons]
      rw [show List.map (fun c => Op.both c c) l = diagTrace l from rfl, ih]

theorem scoreTrace_diag (sd : ℕ → ℕ → ℤ) (l : List ℕ) :
    scoreTrace sd (diagTrace l) = (l.map (fun c => sd c c)).sum := by
  unfold scoreTrace
  rw [trimEnds_diag, gapPen_no_gaps (fun x hx => isGap_diagTrace hx), subScore_diag]
  omega

theorem bestScore_self_ge (sd : ℕ → ℕ → ℤ) (l : List ℕ) :
    (l.map (fun c => sd c c)).sum ≤ bestScore sd l l := by
  have := @le_bestScore sd _ _ _ (diagTrace_mem_traces l)
  rwa [scoreTrace_diag] at this



/-! ## Target-sequence structure for pathways of at most 9 steps -/

theorem flatMap_stepSymbol_range {N : ℕ} (h : N ≤ 9) :
    (List.range N).flatMap (fun k => stepSymbol k) = (List.range N).map (fun k => k + 1) := by
  induction N with
  | zero => rfl
  | succ n ih =>
      rw [List.range_succ, List.flatMap_append, List.map_append, ih (by omega)]
      simp [stepSymbol_small (show n < 9 by omega)]

theorem target_eq_range {cp : CarePath} (h : cp.length ≤ 9) :
    get_target_sequence cp = List.range (cp.length + 1) := by
  unfold get_target_sequence
  rw [flatMap_stepSymbol_range h, List.range_succ_eq_map]

theorem sum_diag_range (N : ℕ) :
    ((List.range (N + 1)).map (fun c => make_scoring_dict c c)).sum = 1000 + 10 * N := by
  induction N with
  | zero => rfl
  | succ n ih =>
      rw [List.range_succ, List.map_append, List.sum_append, ih]
      have h10 : make_scoring_dict (n + 1) (n + 1) = 10 := by simp [make_scoring_dict]
      simp [h10]
      ring

theorem make_scoring_dict_le (a b : ℕ) :
    make_scoring_dict a b ≤ if b = 0 then 1000 else 10 := by
  unfold make_scoring_dict
  split
  · split <;> split <;> omega
  · split
    · split <;> omega
    · split <;> split <;> omega

theorem nodup_length_le {l : List ℕ} {N : ℕ} (hnd : l.Nodup)
    (hmem : ∀ x ∈ l, 1 ≤ x ∧ x ≤ N) : l.length ≤ N := by
  have hsub : l.toFinset ⊆ Finset.Icc 1 N := by
    intro x hx
    rcases hmem x (List.mem_toFinset.mp hx) with ⟨h1, h2⟩
    exact Finset.mem_Icc.mpr ⟨h1, h2⟩
  have hcard := Finset.card_le_card hsub
  rw [List.toFinset_card_of_nodup hnd, Nat.card_Icc] at hcard
  omega

theorem sum_g_bound {l : List ℕ} {N : ℕ} (hnd : l.Nodup)
    (hmem : ∀ x ∈ l, 1 ≤ x ∧ x ≤ N) :
    (((0 :: l).map (fun b => if b = 0 then (1000 : ℤ) else 10)).sum) ≤ 1000 + 10 * N := by
  have hlen := nodup_length_le hnd hmem
  have hall : ∀ x ∈ l,
      (fun b => if b = 0 then (1000 : ℤ) else 10) x = (fun _ => (10 : ℤ)) x := by
    intro x hx
    rcases hmem x hx with ⟨h1, _⟩
    simp [show x ≠ 0 by omega]
  have hconst : ∀ m : List ℕ, (m.map (fun _ => (10 : ℤ))).sum = 10 * m.length := by
    intro m
    induction m with
    | nil => simp
    | cons x m ih => simp [ih]; ring
  rw [List.map_cons, List.sum_cons, List.map_congr_left hall, hconst]
  have hc : (l.length : ℤ) ≤ (N : ℤ) := by exact_mod_cast hlen
  simp only [if_pos rfl]
  omega



/-- C8 (confirmed, for pathways of at most 9 steps — beyond which symbols
stop being single characters and no reduced projected sequence can equal
the target): the raw alignment score of the target sequence against itself
is at least the raw score of the target against any other reduced
projected sequence (a `0`-led duplicate-free sequence of step symbols). -/
theorem C8_theorem {cp : CarePath} (h9 : cp.length ≤ 9) {l : List ℕ}
    (hnd : l.Nodup) (hmem : ∀ x ∈ l, 1 ≤ x ∧ x ≤ cp.length) :
    bestScore make_scoring_dict (get_target_sequence cp) (0 :: l)
      ≤ bestScore make_scoring_dict (get_target_sequence cp) (get_target_sequence cp) := by
  rw [target_eq_range h9]
  have hub : bestScore make_scoring_dict (List.range (cp.length + 1)) (0 :: l)
      ≤ 1000 + 10 * cp.length := by
    apply bestScore_le
    intro t ht
    have hB := opsB_traces ht
    have h1 := scoreTrace_le_sum (g := fun b => if b = 0 then (1000 : ℤ) else 10)
      make_scoring_dict_le (by intro b; by_cases hb : b = 0 <;> simp [hb]) t
    rw [hB] at h1
    exact le_trans h1 (sum_g_bound hnd hmem)
  have hlb : (1000 : ℤ) + 10 * cp.length
      ≤ bestScore make_scoring_dict (List.range (cp.length + 1)) (List.range (cp.length + 1)) := by
    have h2 := bestScore_self_ge make_scoring_dict (List.range (cp.length + 1))
    rwa [sum_diag_range] at h2
  exact le_trans hub hlb



/-! ## Projection lemmas -/

theorem findStep_sound : ∀ (steps : List StepVal) (p : String) (k : ℕ) (syms : List ℕ),
    findStep p steps k = some (some syms) → ∃ j, j < steps.length ∧ syms = stepSymbol (k + j)
  | [], _, _, _, h => by simp [findStep] at h
  | none :: _, _, _, _, h => by simp [findStep] at h
  | some codes :: rest, p, k, syms, h => by
      by_cases hp : p ∈ codes
      · simp [findStep, hp] at h
        exact ⟨0, by simp, by simp [h]⟩
      · simp only [findStep, hp, if_neg, if_false] at h
        rcases findStep_sound rest p (k + 1) syms h with ⟨j, hj, hs⟩
        exact ⟨j + 1, by simp; omega, by rw [hs]; congr 1; omega⟩

theorem buildPcd_sound {cp : CarePath} : ∀ {ps : List String} {body : List ℕ},
    buildPcd ps cp = some body → ∀ x ∈ body, ∃ k, k < cp.length ∧ x ∈ stepSymbol k := by
  intro ps
  induction ps with
  | nil => intro body h; simp [buildPcd] at h; subst h; simp
  | cons p rest ih =>
      intro body h x hx
      simp only [buildPcd, Option.bind_eq_bind, Option.bind_eq_some] at h
      rcases h with ⟨m, hm, tail, htail, hbody⟩
      have hb2 : m.getD [] ++ tail = body := by simpa using hbody
      subst hb2
      rcases List.mem_append.mp hx with hx1 | hx2
      · cases m with
        | none => simp at hx1
        | some syms =>
            rcases findStep_sound cp p 0 syms hm with ⟨j, hj, rfl⟩
            exact ⟨0 + j, by omega, by simpa using hx1⟩
      · exact ih htail x hx2

theorem buildPcd_length {cp : CarePath} (h9 : cp.length ≤ 9) :
    ∀ {ps : List String} {body : List ℕ},
    buildPcd ps cp = some body → body.length ≤ ps.length := by
  intro ps
  induction ps with
  | nil => intro body h; simp [buildPcd] at h; subst h; simp
  | cons p rest ih =>
      intro body h
      simp only [buildPcd, Option.bind_eq_bind, Option.bind_eq_some] at h
      rcases h with ⟨m, hm, tail, htail, hbody⟩
      have hb2 : m.getD [] ++ tail = body := by simpa using hbody
      subst hb2
      have htl := ih htail
      have hhd : (m.getD []).length ≤ 1 := by
        cases m with
        | none => simp
        | some syms =>
            rcases findStep_sound cp p 0 syms hm with ⟨j, hj, rfl⟩
            rw [stepSymbol_small (by omega)]
            simp
      simp only [List.length_append, List.length_cons]
      omega

/-- Inversion for a successful `construct_pcd_seq`. -/
theorem construct_pcd_seq_inv {ps : List String} {cp : CarePath} {pcd : List ℕ} {frac : ℚ}
    (h : construct_pcd_seq ps cp = some (pcd, frac)) :
    ∃ body, buildPcd ps cp = some body ∧ pcd = 0 :: body ∧ ps ≠ [] ∧
      frac = (body.length : ℚ) / ps.length := by
  unfold construct_pcd_seq at h
  cases hb : buildPcd ps cp with
  | none => rw [hb] at h; simp at h
  | some body =>
      rw [hb] at h
      dsimp only at h
      by_cases hl : ps.length = 0
      · rw [if_pos hl] at h; simp at h
      · rw [if_neg hl] at h
        simp only [Option.some_inj, Prod.mk.injEq] at h
        obtain ⟨h1, h2⟩ := h
        refine ⟨body, rfl, h1.symm, fun hh => hl (by simp [hh]), ?_⟩
        rw [← h2, List.length_cons]
        push_cast
        ring

theorem frac_bounds {ps : List String} {cp : CarePath} {pcd : List ℕ} {frac : ℚ}
    (h9 : cp.length ≤ 9) (h : construct_pcd_seq ps cp = some (pcd, frac)) :
    0 ≤ frac ∧ frac ≤ 1 := by
  rcases construct_pcd_seq_inv h with ⟨body, hb, rfl, hne, rfl⟩
  have hlen := buildPcd_length h9 hb
  have hpos : 0 < (ps.length : ℚ) := by
    have : 0 < ps.length := List.length_pos.mpr hne
    exact_mod_cast this
  constructor
  · positivity
  · rw [div_le_one hpos]
    exact_mod_cast hlen



/-! ## Reduced-sequence lemmas -/

theorem red_foldl_acc_mem {z : ℕ} : ∀ (s acc : List ℕ), z ∈ acc →
    z ∈ s.foldl (fun new c => if c ∈ new then new else new ++ [c]) acc
  | [], _, h => h
  | c :: s, acc, h => by
      apply red_foldl_acc_mem s
      by_cases hc : c ∈ acc <;> simp [hc, h]

theorem red_foldl_mem {x : ℕ} : ∀ (s acc : List ℕ), x ∈ s →
    x ∈ s.foldl (fun new c => if c ∈ new then new else new ++ [c]) acc
  | [], _, h => by simp at h
  | c :: s, acc, h => by
      rcases List.mem_cons.mp h with rfl | h
      · refine red_foldl_acc_mem s _ ?_
        by_cases hc : x ∈ acc
        · simp [hc]
        · simp [hc]
      · exact red_foldl_mem s _ h

theorem red_foldl_extends : ∀ (s acc : List ℕ),
    ∃ ext, s.foldl (fun new c => if c ∈ new then new else new ++ [c]) acc = acc ++ ext
  | [], acc => ⟨[], by simp⟩
  | c :: s, acc => by
      by_cases hc : c ∈ acc
      · rcases red_foldl_extends s acc with ⟨ext, hext⟩
        exact ⟨ext, by simpa [hc] using hext⟩
      · rcases red_foldl_extends s (acc ++ [c]) with ⟨ext, hext⟩
        refine ⟨[c] ++ ext, ?_⟩
        simp only [List.foldl_cons, if_neg hc]
        rw [hext]
        simp

theorem get_reduced_cons_zero (body : List ℕ) :
    ∃ ext, get_reduced_str (0 :: body) = 0 :: ext ∧ ∀ x ∈ body, x ∈ 0 :: ext := by
  unfold get_reduced_str
  have h0 : ((0 : ℕ) ∈ ([] : List ℕ)) = False := by simp
  rcases red_foldl_extends body [0] with ⟨ext, hext⟩
  refine ⟨ext, ?_, ?_⟩
  · simp only [List.foldl_cons]
    rw [if_neg (by simp)]
    simpa using hext
  · intro x hx
    have := red_foldl_mem body [0] hx
    rw [hext] at this
    simpa using this

theorem make_scoring_dict_00 : make_scoring_dict 0 0 = 1000 := rfl

theorem sequence_alignment_nonneg {cp : CarePath} {body : List ℕ}
    (hnz : ∀ x ∈ body, x ≠ 0) (hne : body ≠ []) :
    0 ≤ sequence_alignment (get_reduced_str (0 :: body)) (get_target_sequence cp) := by
  obtain ⟨ext, hred, hmem⟩ := get_reduced_cons_zero body
  obtain ⟨x, hx⟩ := List.exists_mem_of_ne_nil body hne
  have hx0 := hnz x hx
  have hxin : x ∈ 0 :: ext := hmem x hx
  have hext : ext ≠ [] := by
    intro h
    subst h
    simp at hxin
    exact hx0 hxin
  rw [hred]
  unfold sequence_alignment
  have hbs : (1000 : ℤ) ≤ bestScore make_scoring_dict (get_target_sequence cp) (0 :: ext) := by
    have h := bestScore_anchor_ge make_scoring_dict
      ((List.range cp.length).flatMap (fun k => stepSymbol k)) ext
    rw [make_scoring_dict_00] at h
    exact h
  have hlen : 2 ≤ (0 :: ext).length := by
    cases ext with
    | nil => exact absurd rfl hext
    | cons y t => simp
  have hq : (1000 : ℚ) ≤ ((bestScore make_scoring_dict (get_target_sequence cp) (0 :: ext) : ℤ) : ℚ) := by
    exact_mod_cast hbs
  have hl : (1 : ℚ) ≤ ((0 :: ext).length : ℚ) - 1 := by
    have : (2 : ℚ) ≤ ((0 :: ext).length : ℚ) := by exact_mod_cast hlen
    linarith
  apply div_nonneg
  · apply div_nonneg <;> linarith
  · norm_num



/-! ## Evaluator lemmas -/

theorem strictCand_eq {codeList : List String} {cp : CarePath} {pf : List ℕ × ℚ}
    (h : construct_pcd_seq codeList cp = some pf) :
    strictCand codeList cp = some (candScoreStrict codeList cp) := by
  unfold strictCand candScoreStrict
  rw [h]
  rfl

theorem strictLoop_eq_foldl {codeList : List String} : ∀ (cps : List CarePath) (best : ℚ),
    (∀ cp ∈ cps, (construct_pcd_seq codeList cp).isSome) →
    strictLoop codeList cps best =
      some (cps.foldl (fun b cp => max b (candScoreStrict codeList cp)) best)
  | [], best, _ => rfl
  | cp :: rest, best, h => by
      have hcp := h cp (by simp)
      obtain ⟨pf, hpf⟩ := Option.isSome_iff_exists.mp hcp
      rw [List.foldl_cons]
      have hc := strictCand_eq hpf
      simp only [strictLoop, hc, Option.bind_eq_bind, Option.some_bind]
      rw [ite_gt_eq_max]
      exact strictLoop_eq_foldl rest _ (fun c hcm => h c (by simp [hcm]))

theorem strictLoop_nonneg {codeList : List String} : ∀ {cps : List CarePath} {best r : ℚ},
    0 ≤ best → strictLoop codeList cps best = some r → 0 ≤ r
  | [], best, r, hb, h => by
      simp only [strictLoop, Option.some_inj] at h
      rw [← h]; exact hb
  | cp :: rest, best, r, hb, h => by
      simp only [strictLoop, Option.bind_eq_bind, Option.bind_eq_some] at h
      rcases h with ⟨adh, _, hrest⟩
      refine strictLoop_nonneg ?_ hrest
      by_cases hgt : adh > best
      · rw [if_pos hgt]; linarith
      · rw [if_neg hgt]; exact hb

theorem body_nonzero {codeList : List String} {cp : CarePath} {body : List ℕ}
    (h9 : cp.length ≤ 9) (hb : buildPcd codeList cp = some body) :
    ∀ x ∈ body, x ≠ 0 := by
  intro x hx
  obtain ⟨k, hk, hxs⟩ := buildPcd_sound hb x hx
  rw [stepSymbol_small (by omega)] at hxs
  simp at hxs
  omega

theorem strict_le_generous_loop {codeList : List String} :
    ∀ (cps : List CarePath) (bs bg : ℚ) (aP : Option ℚ),
    bs ≤ bg →
    (∀ cp ∈ cps, cp.length ≤ 9 ∧
        ∃ pcd frac, construct_pcd_seq codeList cp = some (pcd, frac) ∧ frac ≠ 0) →
    ∃ r st, strictLoop codeList cps bs = some r ∧
      generousLoop codeList cps (bg, aP) = some st ∧ r ≤ st.1
  | [], bs, bg, aP, hle, _ => ⟨bs, (bg, aP), rfl, rfl, hle⟩
  | cp :: rest, bs, bg, aP, hle, h => by
      obtain ⟨h9, pcd, frac, hc, hf⟩ := h cp (by simp)
      obtain ⟨body, hb, rfl, hneps, hfr⟩ := construct_pcd_seq_inv hc
      have hnz := body_nonzero h9 hb
      have hbody : body ≠ [] := by
        intro hbe
        subst hbe
        simp at hfr
        exact hf hfr
      have halign := @sequence_alignment_nonneg cp body hnz hbody
      have hfb := frac_bounds h9 hc
      have hstrict : strictCand codeList cp
          = some (sequence_alignment (get_reduced_str (0 :: body)) (get_target_sequence cp) * frac) := by
        unfold strictCand
        rw [hc]
        simp [hf]
      have hgen : generousStep codeList (bg, aP) cp
          = some (if sequence_alignment (get_reduced_str (0 :: body)) (get_target_sequence cp) > bg
                  then sequence_alignment (get_reduced_str (0 :: body)) (get_target_sequence cp) else bg,
                  some (sequence_alignment (get_reduced_str (0 :: body)) (get_target_sequence cp))) := by
        unfold generousStep
        rw [hc]
        simp [hf]
      have hmul : sequence_alignment (get_reduced_str (0 :: body)) (get_target_sequence cp) * frac
          ≤ sequence_alignment (get_reduced_str (0 :: body)) (get_target_sequence cp) :=
        mul_le_of_le_one_right halign hfb.2
      obtain ⟨r, st, h1, h2, h3⟩ := strict_le_generous_loop rest
        (if sequence_alignment (get_reduced_str (0 :: body)) (get_target_sequence cp) * frac > bs
         then sequence_alignment (get_reduced_str (0 :: body)) (get_target_sequence cp) * frac else bs)
        (if sequence_alignment (get_reduced_str (0 :: body)) (get_target_sequence cp) > bg
         then sequence_alignment (get_reduced_str (0 :: body)) (get_target_sequence cp) else bg)
        (some (sequence_alignment (get_reduced_str (0 :: body)) (get_target_sequence cp)))
        (by rw [ite_gt_eq_max, ite_gt_eq_max]; exact max_le_max hle hmul)
        (fun c hcm => h c (by simp [hcm]))
      refine ⟨r, st, ?_, ?_, h3⟩
      · simp only [strictLoop, hstrict, Option.bind_eq_bind, Option.some_bind]
        exact h1
      · simp only [generousLoop, hgen, Option.bind_eq_bind, Option.some_bind]
        exact h2



/-- C2, amended (the claim as stated is refuted by `C2_counterexample`):
for a known diagnosis all of whose candidate pathways have at most 9 steps
and yield a *nonzero* match fraction on the parsed input, the strict
variant's score is at most the generous variant's score.  (With a
zero-fraction candidate the generous variant can return `-1.0` while the
strict variant returns `0.0` or more.) -/
theorem C2_theorem (data : Registry) (d pcs : String) (cps : List CarePath)
    (hd : data d = some cps)
    (hok : ∀ cp ∈ cps, cp.length ≤ 9 ∧
        ∃ pcd frac, construct_pcd_seq (parseCodes pcs) cp = some (pcd, frac) ∧ frac ≠ 0) :
    seq_alignment_adherence data d pcs ≤ generous_adherence data d pcs := by
  unfold seq_alignment_adherence generous_adherence
  rw [hd]
  dsimp only
  obtain ⟨r, st, h1, h2, h3⟩ := strict_le_generous_loop cps 0 0 none le_rfl hok
  rw [h1, h2]
  exact round3_mono h3

/-- C1, amended (the claim as stated is refuted by `C1_counterexample`):
when a known diagnosis's candidates all evaluate without raising, the
strict evaluator degrades each zero-match-fraction candidate to score `0`,
continues through every candidate, and returns the rounded running maximum
(started at `0`) of the per-candidate scores.  An exception inside any one
candidate, however, aborts the whole evaluation with `-1.0`. -/
theorem C1_theorem (data : Registry) (d pcs : String) (cps : List CarePath)
    (hd : data d = some cps)
    (hok : ∀ cp ∈ cps, (construct_pcd_seq (parseCodes pcs) cp).isSome) :
    seq_alignment_adherence data d pcs
      = round3 (cps.foldl (fun b cp => max b (candScoreStrict (parseCodes pcs) cp)) 0) := by
  unfold seq_alignment_adherence
  rw [hd]
  dsimp only
  rw [strictLoop_eq_foldl cps 0 hok]

/-- C10 (confirmed): for every registry, category map, diagnosis code and
input string, the strict variant and the rollup variant each return either
exactly the sentinel `-1.0` or a value `≥ 0`; no result lies strictly
between `-1.0` and `0.0`, because the running best starts at `0.0` and is
only replaced by strictly larger candidate scores. -/
theorem C10_theorem (data : Registry) (catm : String → Option (ℕ × String)) (d pcs : String) :
    (seq_alignment_adherence data d pcs = -1 ∨ 0 ≤ seq_alignment_adherence data d pcs) ∧
    (rollup_adherence data catm d pcs = -1 ∨ 0 ≤ rollup_adherence data catm d pcs) := by
  constructor
  · unfold seq_alignment_adherence
    cases hd : data d with
    | none => left; rfl
    | some cps =>
        dsimp only
        cases hl : strictLoop (parseCodes pcs) cps 0 with
        | none => left; rfl
        | some r =>
            right
            dsimp only
            exact round3_nonneg (strictLoop_nonneg le_rfl hl)
  · unfold rollup_adherence
    cases hd : data d with
    | none => left; rfl
    | some cps =>
        dsimp only
        cases cps with
        | nil => right; exact round3_nonneg le_rfl
        | cons c t => left; rfl

/-- C9, amended (the claim as stated is refuted by `C9_counterexample`):
for a known diagnosis with *at least one* candidate pathway, an empty
parsed procedure-code list makes all three evaluator variants return
exactly `-1.0` (the division by `len(procedures)` raises on the first
candidate; the rollup variant raises on its undefined callee).  With zero
candidate pathways the loop body never runs and `0.0` is returned
instead. -/
theorem C9_theorem (data : Registry) (catm : String → Option (ℕ × String))
    (d pcs : String) (cp : CarePath) (cps : List CarePath)
    (hd : data d = some (cp :: cps)) (hp : parseCodes pcs = []) :
    seq_alignment_adherence data d pcs = -1 ∧ generous_adherence data d pcs = -1 ∧
      rollup_adherence data catm d pcs = -1 := by
  have hnone : construct_pcd_seq (parseCodes pcs) cp = none := by rw [hp]; rfl
  refine ⟨?_, ?_, ?_⟩
  · unfold seq_alignment_adherence
    rw [hd]
    dsimp only
    have hcand : strictCand (parseCodes pcs) cp = none := by
      unfold strictCand
      rw [hnone]
      rfl
    have hloop : strictLoop (parseCodes pcs) (cp :: cps) 0 = none := by
      simp only [strictLoop, hcand, Option.bind_eq_bind, Option.none_bind]
    rw [hloop]
  · unfold generous_adherence
    rw [hd]
    dsimp only
    have hstep : generousStep (parseCodes pcs) (0, none) cp = none := by
      unfold generousStep
      rw [hnone]
      rfl
    have hloop : generousLoop (parseCodes pcs) (cp :: cps) (0, none) = none := by
      simp only [generousLoop, hstep, Option.bind_eq_bind, Option.none_bind]
    rw [hloop]
  · unfold rollup_adherence
    rw [hd]

/-- C7, amended (the claim as stated is refuted by `C7_counterexample`):
(1) when the *first* candidate pathway yields a zero match fraction, the
comparison `adherence > best_adh` reads the still-unbound `adherence`
variable, the evaluation aborts, and `-1.0` is returned — the remaining
candidates are *not* evaluated; (2) when a later candidate yields a zero
match fraction, `best_adh` is forcibly set to `-1.0` and then immediately
compared against the stale adherence value `a` of the previous candidate
(restoring `a` whenever `a > -1`), after which the remaining candidates
are evaluated from that state. -/
theorem C7_theorem :
    (∀ (data : Registry) (d pcs : String) (cp : CarePath) (rest : List CarePath) (pcd : List ℕ),
      data d = some (cp :: rest) →
      construct_pcd_seq (parseCodes pcs) cp = some (pcd, 0) →
      generous_adherence data d pcs = -1) ∧
    (∀ (codeList : List String) (cps : List CarePath) (cp : CarePath) (best a : ℚ) (pcd : List ℕ),
      construct_pcd_seq codeList cp = some (pcd, 0) →
      generousLoop codeList (cp :: cps) (best, some a) =
        generousLoop codeList cps ((if a > -1 then a else -1), some a)) := by
  constructor
  · intro data d pcs cp rest pcd hd hc
    unfold generous_adherence
    rw [hd]
    dsimp only
    have hstep : generousStep (parseCodes pcs) (0, none) cp = none := by
      unfold generousStep
      rw [hc]
      simp
    have hloop : generousLoop (parseCodes pcs) (cp :: rest) (0, none) = none := by
      simp only [generousLoop, hstep, Option.bind_eq_bind, Option.none_bind]
    rw [hloop]
  · intro codeList cps cp best a pcd hc
    have hstep : generousStep codeList (best, some a) cp
        = some (if a > -1 then a else -1, some a) := by
      unfold generousStep
      rw [hc]
      simp
    simp only [generousLoop, hstep, Option.bind_eq_bind, Option.some_bind]



theorem parse_a : parseCodes "a " = ["a"] := by decide

theorem construct_good : construct_pcd_seq ["a"] cpGood = some ([0, 1], 1) := by
  have hb : buildPcd ["a"] cpGood = some [1] := by decide
  simp [construct_pcd_seq, hb]
  norm_num

theorem construct_z : construct_pcd_seq ["a"] cpZ = some ([0], 0) := by
  have hb : buildPcd ["a"] cpZ = some [] := by decide
  simp [construct_pcd_seq, hb]

theorem align_01 : sequence_alignment [0, 1] [0, 1] = 1 := by
  rw [sequence_alignment, show bestScore make_scoring_dict [0, 1] [0, 1] = 1010 from by decide]
  norm_num

theorem eval_strict_good : seq_alignment_adherence dataGood "D" "a " = 1 := by
  have h2 : get_target_sequence cpGood = [0, 1] := by decide
  have h4 : get_reduced_str [0, 1] = [0, 1] := by decide
  rw [seq_alignment_adherence]
  simp [dataGood, strictLoop, strictCand, construct_good, parse_a, h2, h4, align_01, round3]
  norm_num

theorem eval_strict_z : seq_alignment_adherence dataZ "D" "a " = 0 := by
  rw [seq_alignment_adherence]
  simp [dataZ, strictLoop, strictCand, construct_z, parse_a, round3]
  norm_num

theorem eval_strict_c1 : seq_alignment_adherence dataC1 "D" "a " = -1 := by decide

theorem eval_gen_z : generous_adherence dataZ "D" "a " = -1 := by
  rw [generous_adherence]
  simp [dataZ, generousLoop, generousStep, construct_z, parse_a]

theorem eval_gen_data2 : generous_adherence data2 "D" "a " = -1 := by
  rw [generous_adherence]
  simp [data2, generousLoop, generousStep, construct_z, parse_a]

theorem eval_gen_good : generous_adherence dataGood "D" "a " = 1 := by
  have h2 : get_target_sequence cpGood = [0, 1] := by decide
  have h4 : get_reduced_str [0, 1] = [0, 1] := by decide
  rw [generous_adherence]
  simp [dataGood, generousLoop, generousStep, construct_good, parse_a, h2, h4, align_01, round3]
  norm_num

theorem eval_rollup_broken : rollup_adherence dataGood catm2 "D" "a " = -1 := by decide

theorem construct_rollup_good : construct_rollup_pcd_seq ["a"] cpGood catm2 = some ([0, 1], 1) := by
  have hb : buildRollupPcd ["a"] cpGood catm2 = some [1] := by decide
  simp [construct_rollup_pcd_seq, hb]
  norm_num

theorem eval_rollup_intended : rollup_adherence_intended dataGood catm2 "D" "a " = 1 := by
  have h2 : get_target_sequence cpGood = [0, 1] := by decide
  have h4 : get_reduced_str [0, 1] = [0, 1] := by decide
  rw [rollup_adherence_intended]
  simp [dataGood, rollupLoop, rollupCand, construct_rollup_good, parse_a, h2, h4, align_01, round3]
  norm_num

theorem eval_rollup_cat : construct_rollup_pcd_seq ["100"] cpX catm2 = some ([0], 0) := by
  have hb : buildRollupPcd ["100"] cpX catm2 = some [] := by decide
  simp [construct_rollup_pcd_seq, hb]

theorem eval_cat_100 : (catm2 "100").map Prod.snd = some "X" := by decide

theorem eval_cat_200 : (catm2 "200").map Prod.snd = some "X" := by decide

theorem eval_strict_empty : seq_alignment_adherence dataE "D" "" = 0 := by
  rw [seq_alignment_adherence]
  simp [dataE, strictLoop, round3]
  norm_num



/-! ## Parsing lemmas -/

theorem pySplitSp_ne_nil : ∀ l : List Char, pySplitSp l ≠ []
  | [] => by simp [pySplitSp]
  | c :: rest => by
      simp only [pySplitSp]
      cases pySplitSp rest with
      | nil => simp
      | cons f fs => by_cases hc : c = ' ' <;> simp [hc]

theorem pySplitSp_concat_space : ∀ l : List Char,
    pySplitSp (l ++ [' ']) = pySplitSp l ++ [[]]
  | [] => rfl
  | c :: rest => by
      have ih := pySplitSp_concat_space rest
      cases h : pySplitSp rest with
      | nil => exact absurd h (pySplitSp_ne_nil rest)
      | cons f fs =>
          simp only [List.cons_append, pySplitSp, List.append_eq]
          rw [ih, h]
          by_cases hc : c = ' ' <;> simp [hc]

theorem fields_push_space (s : String) :
    fields (s.push ' ') = fields s ++ [""] := by
  unfold fields
  have hdata : (s.push ' ').data = s.data ++ [' '] := by
    cases s
    rfl
  rw [hdata, pySplitSp_concat_space, List.map_append]
  rfl

theorem parseCodes_push_space (s : String) : parseCodes (s.push ' ') = fields s := by
  unfold parseCodes
  rw [fields_push_space]
  exact List.dropLast_concat ..


/-!
## Claim counterexamples, code-bug evaluations and witnesses
-/

/-- C1, counterexample to the claim as stated: with candidates
`[cpBad, cpGood]` a `TypeError` while scanning the malformed first
candidate aborts the whole strict evaluation and returns `-1.0`, although
the second candidate on its own evaluates to `1.0` — the evaluator does
not continue with remaining candidates and returns the sentinel even
though a candidate could be evaluated. -/
theorem C1_counterexample :
    seq_alignment_adherence dataC1 "D" "a " = -1 ∧
      seq_alignment_adherence dataGood "D" "a " = 1 :=
  ⟨eval_strict_c1, eval_strict_good⟩

/-- Witness for `C1_theorem` at a concrete input: the first candidate has
zero match fraction and the evaluator still reaches the second one. -/
theorem C1_witness :
    seq_alignment_adherence data2 "D" "a " =
      round3 (List.foldl (fun b cp => max b (candScoreStrict (parseCodes "a ") cp)) 0
        [cpZ, cpGood]) :=
  C1_theorem data2 "D" "a " [cpZ, cpGood] rfl (by decide)

/-- C2, counterexample to the claim as stated: on a diagnosis whose only
candidate matches none of the input codes, the strict variant returns
`0.0` but the generous variant raises `NameError` (reading the unbound
`adherence` variable) and returns `-1.0`, so strict ≤ generous fails. -/
theorem C2_counterexample :
    ¬(seq_alignment_adherence dataZ "D" "a " ≤ generous_adherence dataZ "D" "a ") := by
  rw [eval_strict_z, eval_gen_z]
  norm_num

/-- Witness for `C2_theorem` at a concrete input. -/
theorem C2_witness :
    seq_alignment_adherence dataGood "D" "a " ≤ generous_adherence dataGood "D" "a " := by
  refine C2_theorem dataGood "D" "a " [cpGood] rfl ?_
  intro cp hcp
  rw [List.mem_singleton] at hcp
  subst hcp
  refine ⟨by decide, [0, 1], 1, ?_, by norm_num⟩
  rw [parse_a]
  exact construct_good

/-- C3 (code bug): `rollup_adherence` calls `construct_rollup_pcd_seq2`,
a name defined nowhere in the repository, so for any known diagnosis with
a candidate pathway it raises `NameError` and returns `-1.0` instead of
iterating the candidates — here on an input whose rollup evaluation, read
with the repository's defined `construct_rollup_pcd_seq` as plainly
intended, yields `1.0`. -/
theorem C3_theorem :
    rollup_adherence dataGood catm2 "D" "a " = -1 ∧
      rollup_adherence_intended dataGood catm2 "D" "a " = 1 :=
  ⟨eval_rollup_broken, eval_rollup_intended⟩

/-- C4, counterexample to the claim as stated: a pathway with `N = 10`
steps yields a target string of length 12, not `N + 1 = 11`, because the
symbol of step 10 is the two-character string `"10"`. -/
theorem C4_counterexample :
    cp10.length = 10 ∧ (get_target_sequence cp10).length = 12 ∧
      (get_target_sequence cp10).length ≠ cp10.length + 1 := by
  decide

/-- C4, amended (the claim as stated is refuted by `C4_counterexample`):
for every pathway with at most 9 steps, the target sequence is exactly
the symbols `0, 1, ..., N` in that order, of length `N + 1`. -/
theorem C4_theorem (cp : CarePath) (h9 : cp.length ≤ 9) :
    get_target_sequence cp = List.range (cp.length + 1) ∧
      (get_target_sequence cp).length = cp.length + 1 := by
  refine ⟨target_eq_range h9, ?_⟩
  rw [target_eq_range h9, List.length_range]

/-- Witness for `C4_theorem` at a concrete one-step pathway. -/
theorem C4_witness :
    get_target_sequence cpGood = List.range (cpGood.length + 1) ∧
      (get_target_sequence cpGood).length = cpGood.length + 1 :=
  C4_theorem cpGood (by decide)

/-- C5 (code bug): rollup comparison by object identity.  The observed
code `"100"` and the pathway code `"200"` have value-equal categories
(both named `"X"`), but they originate from different hierarchy rows, so
the category objects differ and the code's `cat is cat_map[...]` test
fails: no symbol is emitted (projection `"0"`, fraction `0`), where the
claim's value-equality comparison would emit step 1's symbol. -/
theorem C5_theorem :
    construct_rollup_pcd_seq ["100"] cpX catm2 = some ([0], 0) ∧
      (catm2 "100").map Prod.snd = (catm2 "200").map Prod.snd ∧
      catm2 "100" ≠ catm2 "200" ∧
      construct_rollup_pcd_seq ["100"] cpX catm2 ≠ some ([0, 1], 1) := by
  refine ⟨eval_rollup_cat, by decide, by decide, ?_⟩
  rw [eval_rollup_cat]
  intro h
  simp at h

/-- C6, counterexample to the claim as stated: on an input with *no*
trailing separator the parse `split(' ')[:-1]` drops the final code
unconditionally — `"a b"` parses to `["a"]` and the last code `"b"` is
lost, not retained. -/
theorem C6_counterexample :
    parseCodes "a b" = ["a"] ∧ ¬("b" ∈ parseCodes "a b") := by
  decide

/-- C6, amended (the claim as stated is refuted by `C6_counterexample`):
the evaluators split the input on single spaces and unconditionally drop
the final field; when the string ends with a separator the dropped field
is the empty one and every code is retained, and in general the parse is
the field list with its last element dropped. -/
theorem C6_theorem (s : String) :
    parseCodes (s.push ' ') = fields s ∧ parseCodes s = (fields s).dropLast :=
  ⟨parseCodes_push_space s, rfl⟩

/-- C7, counterexample to the claim as stated: with candidates
`[cpZ, cpGood]` the zero-match-fraction first candidate makes the generous
evaluator read the unbound `adherence` variable and return `-1.0`; the
remaining candidate is *not* evaluated, although on its own it scores
`1.0` (and had the loop continued from `best = -1.0` it would have won the
comparison). -/
theorem C7_counterexample :
    generous_adherence data2 "D" "a " = -1 ∧ generous_adherence dataGood "D" "a " = 1 :=
  ⟨eval_gen_data2, eval_gen_good⟩

/-- Witness for `C7_theorem` at concrete inputs: part (1) at a registry
whose single candidate has zero match fraction, part (2) at a concrete
quirk state `(best, adherence) = (5, 1/2)`. -/
theorem C7_witness :
    generous_adherence dataZ "D" "a " = -1 ∧
      generousLoop ["a"] [cpZ] ((5 : ℚ), some ((1 : ℚ)/2)) =
        generousLoop ["a"] [] (((1 : ℚ)/2), some ((1 : ℚ)/2)) := by
  constructor
  · refine C7_theorem.1 dataZ "D" "a " cpZ [] [0] rfl ?_
    rw [parse_a]
    exact construct_z
  · have h := C7_theorem.2 ["a"] [] cpZ 5 (1/2) [0] construct_z
    rwa [if_pos (by norm_num : ((1 : ℚ)/2) > -1)] at h

/-- Witness for `C8_theorem` at a concrete two-step pathway and the
reduced projected sequence `[0, 2]`. -/
theorem C8_witness :
    bestScore make_scoring_dict (get_target_sequence cp2) (0 :: [2]) ≤
      bestScore make_scoring_dict (get_target_sequence cp2) (get_target_sequence cp2) :=
  C8_theorem (by decide) (by decide) (by decide)

/-- C9, counterexample to the claim as stated: a known diagnosis whose
candidate-pathway list is empty makes the strict evaluator return `0.0`,
not the sentinel `-1.0`, on an empty procedure-code input (the loop body,
and with it the division by zero, is never reached). -/
theorem C9_counterexample :
    dataE "D" = some [] ∧ parseCodes "" = [] ∧
      seq_alignment_adherence dataE "D" "" = 0 ∧
      seq_alignment_adherence dataE "D" "" ≠ -1 := by
  refine ⟨rfl, by decide, eval_strict_empty, ?_⟩
  rw [eval_strict_empty]
  norm_num

/-- Witness for `C9_theorem` at a concrete registry with one candidate. -/
theorem C9_witness :
    seq_alignment_adherence dataGood "D" "" = -1 ∧
      generous_adherence dataGood "D" "" = -1 ∧
      rollup_adherence dataGood catm2 "D" "" = -1 :=
  C9_theorem dataGood catm2 "D" "" cpGood [] rfl (by decide)

end Adherence
